import Mathlib

/-!
Verification of the blacksmith agent-harness against its specification.

Each Rust module relevant to the claims is shallowly embedded as executable
Lean definitions: machine integers become `Nat` with explicit `% 2 ^ w`
where overflow can occur, fallible operations become `Option`, file-system
and database state become explicit lists that are threaded through the
functions.  Theorems then settle the specified properties.
-/

namespace Blacksmith

/-! ## retry.rs — RetryPolicy -/

/-- Decision returned by the retry policy (src/retry.rs `RetryDecision`). -/
inductive RetryDecision where
  | Proceed : RetryDecision
  | Retry (attempt : Nat) : RetryDecision
  | Skip : RetryDecision
deriving DecidableEq, Repr

/-- The retry policy state (src/retry.rs `RetryPolicy`).
`maxRetries` and `currentAttempt` are `u32` values, `minOutputBytes` is `u64`;
all are carried as `Nat`, with wrap-around made explicit where the source can
overflow. -/
structure RetryPolicy where
  maxRetries : Nat
  minOutputBytes : Nat
  currentAttempt : Nat
deriving Repr

/-- `RetryPolicy::new` — `current_attempt` starts at 0. -/
def RetryPolicy.new (maxRetries minOutputBytes : Nat) : RetryPolicy :=
  ⟨maxRetries, minOutputBytes, 0⟩

/-- `RetryPolicy::evaluate`.  The source increments the `u32` field
`current_attempt` before comparing it with `max_retries`; the increment is
modelled with an explicit `% 2 ^ 32` (two's-complement wrap-around, the
behaviour of a release build; a debug build would abort at the same point). -/
def RetryPolicy.evaluate (p : RetryPolicy) (outputBytes : Nat) :
    RetryPolicy × RetryDecision :=
  if p.minOutputBytes ≤ outputBytes then
    (p, RetryDecision.Proceed)
  else
    let a := (p.currentAttempt + 1) % 2 ^ 32
    let p' := { p with currentAttempt := a }
    if a ≤ p.maxRetries then
      (p', RetryDecision.Retry a)
    else
      (p', RetryDecision.Skip)

/-- Run a sequence of `evaluate` calls, collecting the decisions. -/
def evalSeq (p : RetryPolicy) : List Nat → List RetryDecision
  | [] => []
  | x :: xs =>
    let r := p.evaluate x
    r.2 :: evalSeq r.1 xs

/-! ## ratelimit.rs — backoff_delay -/

/-- Largest `u64` value. -/
def u64Max : Nat := 2 ^ 64 - 1

/-- `backoff_delay` (src/ratelimit.rs).  `1u64.checked_shl(n)` is `2 ^ n` for
`n < 64` and `None` (replaced by `u64::MAX` via `unwrap_or`) otherwise;
`saturating_mul` clamps the product at `u64::MAX`. -/
def backoff_delay (initialDelaySecs consecutiveCount maxDelaySecs : Nat) : Nat :=
  let shift := if consecutiveCount < 64 then 2 ^ consecutiveCount else u64Max
  let delay := min (initialDelaySecs * shift) u64Max
  min delay maxDelaySecs

/-- Closed form for a run of `evaluate` calls whose outputs are all below the
threshold: the i-th decision is determined by the wrapped attempt counter
`(a + i + 1) % 2 ^ 32`. -/
theorem evalSeq_below (R th : Nat) (xs : List Nat) (hbelow : ∀ x ∈ xs, x < th) :
    ∀ a : Nat, evalSeq ⟨R, th, a⟩ xs =
      (List.range xs.length).map (fun i =>
        if (a + i + 1) % 2 ^ 32 ≤ R then
          RetryDecision.Retry ((a + i + 1) % 2 ^ 32)
        else RetryDecision.Skip) := by
  induction xs with
  | nil => intro a; simp [evalSeq]
  | cons x xs ih =>
    intro a
    have hx : x < th := hbelow x (List.mem_cons_self x xs)
    have hnot : ¬ th ≤ x := Nat.not_le.mpr hx
    have htail : ∀ y ∈ xs, y < th := fun y hy => hbelow y (List.mem_cons_of_mem x hy)
    have hmod : ∀ i : Nat,
        ((a + 1) % 2 ^ 32 + i + 1) % 2 ^ 32 = (a + (i + 1) + 1) % 2 ^ 32 := by
      intro i
      rw [Nat.add_assoc ((a + 1) % 2 ^ 32), Nat.mod_add_mod]
      congr 1
      omega
    have htaileq :
        List.map (fun i =>
          if ((a + 1) % 2 ^ 32 + i + 1) % 2 ^ 32 ≤ R then
            RetryDecision.Retry (((a + 1) % 2 ^ 32 + i + 1) % 2 ^ 32)
          else RetryDecision.Skip) (List.range xs.length) =
        List.map ((fun i =>
          if (a + i + 1) % 2 ^ 32 ≤ R then
            RetryDecision.Retry ((a + i + 1) % 2 ^ 32)
          else RetryDecision.Skip) ∘ (· + 1)) (List.range xs.length) := by
      apply List.map_congr_left
      intro i _
      simp only [Function.comp_apply]
      rw [hmod i]
    simp only [evalSeq, RetryPolicy.evaluate, if_neg hnot]
    rw [List.length_cons, List.range_succ_eq_map, List.map_cons, List.map_map]
    by_cases hle : (a + 1) % 2 ^ 32 ≤ R
    · simp only [if_pos hle]
      rw [ih htail ((a + 1) % 2 ^ 32), htaileq]
    · simp only [if_neg hle]
      rw [ih htail ((a + 1) % 2 ^ 32), htaileq]

/-- C1 (amended): with `max_retries = R`, `min_output_bytes > 0`, and
`R + 1 < 2 ^ 32` (so the `u32` attempt counter cannot wrap), a run of `R + 1`
consecutive below-threshold `evaluate` calls from a fresh policy yields
`Retry 1, …, Retry R, Skip`; and any call whose `output_bytes` is at least the
threshold (equality included) yields `Proceed`. -/
theorem retry_policy_sequence (R th : Nat) (hth : 0 < th) (hR : R + 1 < 2 ^ 32)
    (inputs : List Nat) (hlen : inputs.length = R + 1)
    (hbelow : ∀ x ∈ inputs, x < th) :
    evalSeq (RetryPolicy.new R th) inputs =
      ((List.range R).map fun i => RetryDecision.Retry (i + 1)) ++
        [RetryDecision.Skip] ∧
    ∀ (p : RetryPolicy) (b : Nat), p.minOutputBytes ≤ b →
      (p.evaluate b).2 = RetryDecision.Proceed := by
  constructor
  · have h0 := evalSeq_below R th inputs hbelow 0
    rw [RetryPolicy.new] at *
    rw [h0, hlen, List.range_succ, List.map_append]
    congr 1
    · apply List.map_congr_left
      intro i hi
      have hiR : i < R := List.mem_range.mp hi
      have hsmall : (0 + i + 1) % 2 ^ 32 = i + 1 := by omega
      rw [hsmall]
      rw [if_pos (by omega)]
    · have hsmall : (0 + R + 1) % 2 ^ 32 = R + 1 := by omega
      simp [hsmall]
      omega
  · intro p b h
    simp [RetryPolicy.evaluate, h]

/-- Witness for `retry_policy_sequence` at `R = 2`, threshold 100,
outputs `[0, 50, 99]`. -/
theorem retry_policy_sequence_witness :
    evalSeq (RetryPolicy.new 2 100) [0, 50, 99] =
      ((List.range 2).map fun i => RetryDecision.Retry (i + 1)) ++
        [RetryDecision.Skip] ∧
    ((RetryPolicy.new 2 100).evaluate 100).2 = RetryDecision.Proceed := by
  have h := retry_policy_sequence 2 100 (by decide) (by norm_num) [0, 50, 99] rfl
    (by decide)
  exact ⟨h.1, h.2 _ 100 (by decide)⟩

/-- C1 counterexample: with `max_retries = u32::MAX = 2 ^ 32 - 1` the attempt
counter wraps on the `(R+1)`-th below-threshold call, so the final decision is
`Retry 0`, not `Skip` as the claim requires. -/
theorem retry_policy_wrap_counterexample :
    evalSeq (RetryPolicy.new (2 ^ 32 - 1) 1) (List.replicate (2 ^ 32) 0) ≠
      ((List.range (2 ^ 32 - 1)).map fun i => RetryDecision.Retry (i + 1)) ++
        [RetryDecision.Skip] ∧
    (evalSeq (RetryPolicy.new (2 ^ 32 - 1) 1)
        (List.replicate (2 ^ 32) 0)).getLast? =
      some (RetryDecision.Retry 0) := by
  have hform : evalSeq (RetryPolicy.new (2 ^ 32 - 1) 1) (List.replicate (2 ^ 32) 0) =
      (List.range (2 ^ 32)).map
        (fun i => RetryDecision.Retry ((i + 1) % 2 ^ 32)) := by
    rw [show RetryPolicy.new (2 ^ 32 - 1) 1 = ⟨2 ^ 32 - 1, 1, 0⟩ from rfl]
    rw [evalSeq_below _ _ _
      (by intro x hx; rw [List.eq_of_mem_replicate hx]; norm_num) 0]
    rw [List.length_replicate]
    apply List.map_congr_left
    intro i _
    have h1 : (0 + i + 1) % 2 ^ 32 ≤ 2 ^ 32 - 1 := by
      have := Nat.mod_lt (0 + i + 1) (show 0 < 2 ^ 32 by norm_num)
      omega
    rw [if_pos h1]
    norm_num
  have hlast : (evalSeq (RetryPolicy.new (2 ^ 32 - 1) 1)
      (List.replicate (2 ^ 32) 0)).getLast? =
      some (RetryDecision.Retry 0) := by
    rw [hform, List.getLast?_map]
    rw [show (2 : Nat) ^ 32 = (2 ^ 32 - 1) + 1 by norm_num, List.range_succ]
    rw [List.getLast?_concat]
    simp
  refine ⟨?_, hlast⟩
  intro heq
  rw [heq, List.getLast?_concat] at hlast
  simp at hlast

/-- C2: for `u64` inputs, `backoff_delay` computes exactly
`min (initial * 2 ^ n) max` (in unbounded arithmetic — saturation never changes
the capped result), and the delay is monotonically non-decreasing in the
consecutive count. -/
theorem backoff_delay_spec (i M : Nat) (hi : i ≤ u64Max) (hM : M ≤ u64Max) :
    (∀ n, backoff_delay i n M = min (i * 2 ^ n) M) ∧
    (∀ n m, n ≤ m → backoff_delay i n M ≤ backoff_delay i m M) := by
  have hclosed : ∀ n, backoff_delay i n M = min (i * 2 ^ n) M := by
    intro n
    unfold backoff_delay
    by_cases h : n < 64
    · rw [if_pos h, min_assoc, min_eq_right hM]
    · rw [if_neg h, min_assoc, min_eq_right hM]
      rcases Nat.eq_zero_or_pos i with hz | hpos
      · simp [hz]
      · have h1 : M ≤ i * u64Max :=
          le_trans hM (Nat.le_mul_of_pos_left u64Max hpos)
        have h2 : M ≤ i * 2 ^ n := by
          have h64 : (2 : Nat) ^ 64 ≤ 2 ^ n :=
            Nat.pow_le_pow_right (by norm_num) (Nat.le_of_not_lt h)
          have hlt : u64Max < 2 ^ n := by
            unfold u64Max
            omega
          calc M ≤ u64Max := hM
            _ ≤ 2 ^ n := le_of_lt hlt
            _ ≤ i * 2 ^ n := Nat.le_mul_of_pos_left (2 ^ n) hpos
        rw [min_eq_right h1, min_eq_right h2]
  refine ⟨hclosed, ?_⟩
  intro n m hnm
  rw [hclosed n, hclosed m]
  exact min_le_min
    (Nat.mul_le_mul_left i (Nat.pow_le_pow_right (by norm_num) hnm))
    (le_refl M)

/-- Witness for `backoff_delay_spec` at `initial = 2`, `max = 600`. -/
theorem backoff_delay_spec_witness :
    backoff_delay 2 3 600 = min (2 * 2 ^ 3) 600 ∧
    backoff_delay 2 3 600 ≤ backoff_delay 2 63 600 := by
  have h := backoff_delay_spec 2 600 (by decide) (by decide)
  exact ⟨h.1 3, h.2 3 63 (by decide)⟩

/-! ## ratelimit.rs — rate-limit detection

The four regexes in `RATE_LIMIT_PATTERNS` are simple enough to embed
directly as decidable substring matchers over the character list of the
input.  Regex `\s` is modelled by the ASCII whitespace class and `(?i)` by
comparison after `Char.toLower` (the inputs of interest are ASCII). -/

/-- Characters matched by regex `\s` (ASCII part of the class). -/
def rsWs (c : Char) : Bool :=
  c = ' ' || c = '\t' || c = '\n' || c = '\r' || c = '\x0b' || c = '\x0c'

/-- Case-sensitive character comparison (patterns without `(?i)`). -/
def csEq (a b : Char) : Bool := a = b

/-- Case-insensitive character comparison (patterns with `(?i)`). -/
def ciEq (a b : Char) : Bool := a.toLower = b.toLower

/-- Does `pat` match at the very start of `text`, character by character? -/
def matchesHere (cmp : Char → Char → Bool) : List Char → List Char → Bool
  | [], _ => true
  | _ :: _, [] => false
  | p :: ps, t :: ts => cmp p t && matchesHere cmp ps ts

/-- Does `f` hold on some suffix of `cs` (i.e. does the pattern match at some
starting position, as regex `is_match` does)? -/
def existsAt (f : List Char → Bool) : List Char → Bool
  | [] => f []
  | c :: cs => f (c :: cs) || existsAt f cs

/-- Regex `is_match` for a plain literal pattern. -/
def containsPat (cmp : Char → Char → Bool) (pat : List Char) (cs : List Char) : Bool :=
  existsAt (matchesHere cmp pat) cs

/-- Consume the literal `pat` from the front of `text`, returning the rest. -/
def chompLit (cmp : Char → Char → Bool) : List Char → List Char → Option (List Char)
  | [], t => some t
  | _ :: _, [] => none
  | p :: ps, t :: ts => if cmp p t then chompLit cmp ps ts else none

/-- Pattern 1, `"error"\s*:\s*"rate_limit"`, matching at the start of `suf`.
Note this regex has no `(?i)` flag, so it is case-sensitive.  The greedy
`\s*` needs no backtracking here because `\s` can match neither `:` nor `"`. -/
def p1At (suf : List Char) : Bool :=
  match chompLit csEq ("\"error\"".data) suf with
  | none => false
  | some r1 =>
    match r1.dropWhile rsWs with
    | ':' :: r2 => (chompLit csEq ("\"rate_limit\"".data) (r2.dropWhile rsWs)).isSome
    | _ => false

/-- Pattern 4, `(?i)resets.*UTC`, matching at the start of `suf`:  the literal
`resets`, then `UTC` somewhere later on the same line (`.` does not match a
newline). -/
def p4At (suf : List Char) : Bool :=
  match chompLit ciEq ("resets".data) suf with
  | none => false
  | some rest => containsPat ciEq ("UTC".data) (rest.takeWhile (fun c => c != '\n'))

/-- `detect_rate_limit_in_text` (src/ratelimit.rs): OR over the four patterns
of `RATE_LIMIT_PATTERNS`, in source order. -/
def detect_rate_limit_in_text (text : String) : Bool :=
  existsAt p1At text.data ||
  containsPat ciEq ("usage limit".data) text.data ||
  containsPat ciEq ("hit your limit".data) text.data ||
  existsAt p4At text.data

/-- `detect_rate_limit` (src/ratelimit.rs): the result of
`std::fs::read_to_string` is modelled as `Option String`; `none` covers every
read error (missing file, permission error, non-UTF-8 bytes), for which the
source logs a warning and returns `false`. -/
def detect_rate_limit (readResult : Option String) : Bool :=
  match readResult with
  | none => false
  | some contents => detect_rate_limit_in_text contents

/-- Case-sensitive matcher on lowered text, used to express what
"case-insensitive" means for the `(?i)` patterns. -/
theorem matchesHere_ci_map (pat : List Char) :
    ∀ text, matchesHere ciEq pat text =
      matchesHere csEq (pat.map Char.toLower) (text.map Char.toLower) := by
  induction pat with
  | nil => intro text; simp [matchesHere]
  | cons p ps ih =>
    intro text
    cases text with
    | nil => simp [matchesHere]
    | cons t ts => simp [matchesHere, ciEq, csEq, ih]

theorem existsAt_map (F : List Char → Bool) (g : Char → Char) :
    ∀ l : List Char, existsAt F (l.map g) = existsAt (fun t => F (t.map g)) l := by
  intro l
  induction l with
  | nil => simp [existsAt]
  | cons c cs ih => simp [existsAt, ih]

theorem char_toNat_ofNat (n : Nat) (h : n < 55296) : (Char.ofNat n).toNat = n := by
  rw [Char.ofNat, dif_pos (Or.inl h : Nat.isValidChar n)]
  rfl

theorem toLower_eq_newline_iff (c : Char) : c.toLower = '\n' ↔ c = '\n' := by
  constructor
  · intro h
    rw [Char.toLower] at h
    split at h
    · rename_i hrange
      exfalso
      have := congrArg Char.toNat h
      rw [char_toNat_ofNat (c.toNat + 32) (by omega)] at this
      have h10 : ('\n').toNat = 10 := by decide
      omega
    · exact h
  · intro h
    rw [h]
    decide

theorem takeWhile_ne_newline_map_toLower (l : List Char) :
    (l.map Char.toLower).takeWhile (fun c => c != '\n') =
      (l.takeWhile (fun c => c != '\n')).map Char.toLower := by
  induction l with
  | nil => rfl
  | cons c cs ih =>
    by_cases h : c = '\n'
    · subst h
      simp [List.takeWhile, show ('\n').toLower = '\n' from by decide]
    · have h' : c.toLower ≠ '\n' := fun hc => h ((toLower_eq_newline_iff c).mp hc)
      have hb1 : (c.toLower != '\n') = true := by simpa using h'
      have hb2 : (c != '\n') = true := by simpa using h
      simp [List.takeWhile, hb1, hb2, ih]

theorem chompLit_ci_map (pat : List Char) :
    ∀ s, chompLit csEq (pat.map Char.toLower) (s.map Char.toLower) =
      (chompLit ciEq pat s).map (List.map Char.toLower) := by
  induction pat with
  | nil => intro s; simp [chompLit]
  | cons p ps ih =>
    intro s
    cases s with
    | nil => simp [chompLit]
    | cons t ts =>
      simp only [List.map_cons, chompLit, csEq, ciEq]
      by_cases h : p.toLower = t.toLower
      · simp [h, ih]
      · simp [h]

theorem containsPat_ci_map (pat l : List Char) :
    containsPat ciEq pat l =
      containsPat csEq (pat.map Char.toLower) (l.map Char.toLower) := by
  unfold containsPat
  rw [existsAt_map]
  congr 1
  funext t
  rw [matchesHere_ci_map]

/-- The case-sensitive form of `p4At` on lowered text. -/
def p4AtLower (suf : List Char) : Bool :=
  match chompLit csEq ("resets".data) suf with
  | none => false
  | some rest => containsPat csEq ("utc".data) (rest.takeWhile (fun c => c != '\n'))

theorem p4At_map (s : List Char) : p4At s = p4AtLower (s.map Char.toLower) := by
  have hchomp : chompLit csEq ("resets".data) (s.map Char.toLower) =
      (chompLit ciEq ("resets".data) s).map (List.map Char.toLower) := by
    have h := chompLit_ci_map ("resets".data) s
    rw [show (List.map Char.toLower "resets".data) = "resets".data from by decide] at h
    exact h
  unfold p4At p4AtLower
  rw [hchomp]
  cases hres : chompLit ciEq ("resets".data) s with
  | none => rfl
  | some rest =>
    simp only [Option.map]
    rw [containsPat_ci_map, takeWhile_ne_newline_map_toLower]
    rw [show ("UTC".data.map Char.toLower : List Char) = "utc".data from by decide]

/-- C3 counterexample: the JSON pattern `"error"\s*:\s*"rate_limit"` carries
no `(?i)` flag, so the upper-case variant named by the claim is NOT detected,
while the exact-case literal is. -/
theorem rate_limit_case_counterexample :
    detect_rate_limit_in_text "\"ERROR\":\"RATE_LIMIT\"" = false ∧
    detect_rate_limit_in_text "\"error\":\"rate_limit\"" = true := by
  constructor <;> decide

/-- C3 (amended): the detector returns true iff one of the four fixed
patterns matches; the `usage limit`, `hit your limit` and `resets…UTC`
patterns are case-insensitive (their verdict is invariant under any change of
letter case in the input), but the JSON `"error":"rate_limit"` pattern is
case-sensitive. -/
theorem rate_limit_detector_spec :
    (∀ s : String, detect_rate_limit_in_text s =
      (existsAt p1At s.data ||
       containsPat ciEq ("usage limit".data) s.data ||
       containsPat ciEq ("hit your limit".data) s.data ||
       existsAt p4At s.data)) ∧
    (∀ s t : List Char, s.map Char.toLower = t.map Char.toLower →
      containsPat ciEq ("usage limit".data) s =
        containsPat ciEq ("usage limit".data) t ∧
      containsPat ciEq ("hit your limit".data) s =
        containsPat ciEq ("hit your limit".data) t ∧
      existsAt p4At s = existsAt p4At t) ∧
    detect_rate_limit_in_text "\"error\" : \"rate_limit\"" = true ∧
    detect_rate_limit_in_text "\"ERROR\" : \"RATE_LIMIT\"" = false := by
  refine ⟨fun s => rfl, ?_, by decide, by decide⟩
  intro s t hst
  have hp4 : ∀ u : List Char, existsAt p4At u = existsAt p4AtLower (u.map Char.toLower) := by
    intro u
    rw [existsAt_map]
    congr 1
    funext v
    rw [p4At_map]
  refine ⟨?_, ?_, ?_⟩
  · rw [containsPat_ci_map _ s, containsPat_ci_map _ t, hst]
  · rw [containsPat_ci_map _ s, containsPat_ci_map _ t, hst]
  · rw [hp4 s, hp4 t, hst]

/-- Witness for `rate_limit_detector_spec`: case-insensitivity applied to a
concrete pair of inputs differing only in letter case. -/
theorem rate_limit_detector_spec_witness :
    containsPat ciEq ("usage limit".data) ("USAGE Limit reached".data) =
      containsPat ciEq ("usage limit".data) ("usage limit reached".data) ∧
    existsAt p4At ("Resets at 3pm UTC".data) =
      existsAt p4At ("resets at 3PM utc".data) := by
  have h1 := (rate_limit_detector_spec.2.1 ("USAGE Limit reached".data)
    ("usage limit reached".data) (by decide))
  have h2 := (rate_limit_detector_spec.2.1 ("Resets at 3pm UTC".data)
    ("resets at 3PM utc".data) (by decide))
  exact ⟨h1.1, h2.2.2⟩

/-- C10: an unreadable output file (missing, unreadable, or non-UTF-8 — any
`Err` from `read_to_string`, modelled as `none`) is never classified as
rate-limited; a readable file is classified by scanning its text. -/
theorem detect_rate_limit_unreadable :
    detect_rate_limit none = false ∧
    ∀ contents : String,
      detect_rate_limit (some contents) = detect_rate_limit_in_text contents :=
  ⟨rfl, fun _ => rfl⟩

/-! ## ingest.rs — extraction rules

`apply_single_rule` is embedded over an abstract regex interface: a compiled
user regex is a pair of executable functions, `isMatch` (Rust `is_match`) and
`capturesFirst` (Rust `captures`, reduced to the text that the source
extracts: capture group 1 if present, else the whole match).  The
`CompiledRule` struct itself is declared in config.rs (not part of this tree);
its fields and their types are reconstructed from their uses in ingest.rs and
its tests. -/

/-- A compiled regex, abstracted to the two operations ingest.rs uses. -/
structure Pattern where
  isMatch : String → Bool
  capturesFirst : String → Option String

/-- TOML values that can appear as a rule's `emit` literal, with the
rendering used by `toml_value_to_string`.  (Float and composite TOML values
are omitted: their rendering plays no role in any claim.) -/
inductive TomlValue where
  | str (s : String) : TomlValue
  | boolean (b : Bool) : TomlValue
  | integer (i : Int) : TomlValue
deriving Repr

/-- `toml_value_to_string` (src/ingest.rs). -/
def toml_value_to_string : TomlValue → String
  | TomlValue.str s => s
  | TomlValue.boolean b => toString b
  | TomlValue.integer i => toString i

/-- A compiled extraction rule (config.rs `CompiledRule`, fields as used by
ingest.rs). -/
structure CompiledRule where
  kind : String
  pattern : Pattern
  antiPattern : Option Pattern
  source : String
  transform : Option String
  firstMatch : Bool
  count : Bool
  emit : Option TomlValue

/-- `apply_transform` (src/ingest.rs): `last_segment` is `rsplit('-').next()`,
`int` keeps the ASCII digits, `trim` strips surrounding whitespace; anything
else is the identity. -/
def apply_transform (input : String) (transform : Option String) : String :=
  match transform with
  | some "last_segment" => ((input.splitOn "-").getLast?).getD input
  | some "int" => ⟨input.data.filter Char.isDigit⟩
  | some "trim" => input.trim
  | _ => input

/-- One hex digit as serde_json renders it (lowercase). -/
def hexDigitChar (n : Nat) : Char :=
  if n < 10 then Char.ofNat (48 + n) else Char.ofNat (87 + n)

/-- serde_json's escaping of a single character inside a JSON string. -/
def jsonEscapeChar (c : Char) : List Char :=
  if c = '"' then ['\\', '"']
  else if c = '\\' then ['\\', '\\']
  else if c = '\x08' then ['\\', 'b']
  else if c = '\x0c' then ['\\', 'f']
  else if c = '\n' then ['\\', 'n']
  else if c = '\r' then ['\\', 'r']
  else if c = '\t' then ['\\', 't']
  else if c.toNat < 32 then
    ['\\', 'u', '0', '0', hexDigitChar (c.toNat / 16), hexDigitChar (c.toNat % 16)]
  else [c]

/-- A JSON string literal as serde_json prints it. -/
def jsonStringLit (s : String) : String :=
  ⟨'"' :: ((s.data.map jsonEscapeChar).flatten ++ ['"'])⟩

/-- `Value::Array(...).to_string()` for an array of JSON strings (compact,
comma-separated). -/
def jsonArrayString (xs : List String) : String :=
  "[" ++ String.intercalate "," (xs.map jsonStringLit) ++ "]"

/-- Does the rule's anti-pattern match this line?  (`false` when the rule has
no anti-pattern.) -/
def antiMatches (rule : CompiledRule) (line : String) : Bool :=
  match rule.antiPattern with
  | some anti => anti.isMatch line
  | none => false

/-- The first-match loop of `apply_single_rule`: skip anti-pattern lines,
return the transformed first capture. -/
def firstMatchLoop (rule : CompiledRule) : List String → Option String
  | [] => none
  | l :: ls =>
    if antiMatches rule l then firstMatchLoop rule ls
    else
      match rule.pattern.capturesFirst l with
      | some m => some (apply_transform m rule.transform)
      | none => firstMatchLoop rule ls

/-- The collect-all loop of `apply_single_rule` (default mode). -/
def collectMatches (rule : CompiledRule) : List String → List String
  | [] => []
  | l :: ls =>
    if antiMatches rule l then collectMatches rule ls
    else
      match rule.pattern.capturesFirst l with
      | some m => apply_transform m rule.transform :: collectMatches rule ls
      | none => collectMatches rule ls

/-- `apply_single_rule` (src/ingest.rs): mode dispatch is `emit`, then
`count`, then `first_match`, then collect-all; pushed results are appended to
`results`. -/
def apply_single_rule (rule : CompiledRule) (lines : List String)
    (results : List (String × String)) : List (String × String) :=
  match rule.emit with
  | some emitVal =>
    if lines.any rule.pattern.isMatch then
      results ++ [(rule.kind, toml_value_to_string emitVal)]
    else results
  | none =>
    if rule.count then
      let n := (lines.filter (fun l =>
        rule.pattern.isMatch l && !(antiMatches rule l))).length
      results ++ [(rule.kind, toString n)]
    else if rule.firstMatch then
      match firstMatchLoop rule lines with
      | some v => results ++ [(rule.kind, v)]
      | none => results
    else
      match collectMatches rule lines with
      | [] => results
      | [single] => results ++ [(rule.kind, single)]
      | ms => results ++ [(rule.kind, jsonArrayString ms)]

/-- The compiled form of a plain literal regex such as `cargo test`:
`is_match` is substring containment and the capture (group 0) is the literal
itself.  Used to instantiate the abstract `Pattern` interface concretely. -/
def substrPat (pat : String) : Pattern :=
  ⟨fun line => containsPat csEq pat.data line.data,
   fun line => if containsPat csEq pat.data line.data then some pat else none⟩

/-- An emit-mode rule whose anti-pattern equals its pattern. -/
def emitAntiRule : CompiledRule :=
  ⟨"commit.detected", substrPat "bd-finish", some (substrPat "bd-finish"),
    "tool_commands", none, false, false, some (TomlValue.boolean true)⟩

/-- C6 counterexample: in emit mode `apply_single_rule` never consults the
anti-pattern, so a line matching both the pattern and the anti-pattern still
pushes the emit literal. -/
theorem emit_ignores_anti_pattern_counterexample :
    apply_single_rule emitAntiRule ["./bd-finish.sh bd-xyz"] [] =
      [("commit.detected", "true")] ∧
    antiMatches emitAntiRule "./bd-finish.sh bd-xyz" = true := by
  constructor <;> decide

theorem count_filter_anti (rule : CompiledRule) (anti : Pattern)
    (hanti : rule.antiPattern = some anti) :
    ∀ ls : List String,
      ls.filter (fun l => rule.pattern.isMatch l && !(antiMatches rule l)) =
      (ls.filter (fun l => !anti.isMatch l)).filter
        (fun l => rule.pattern.isMatch l && !(antiMatches rule l)) := by
  intro ls
  induction ls with
  | nil => rfl
  | cons l ls ih =>
    have hAM : antiMatches rule l = anti.isMatch l := by
      rw [antiMatches, hanti]
    by_cases ha : anti.isMatch l = true
    · simp [List.filter, hAM, ha, ih]
    · have ha' : anti.isMatch l = false := by
        cases h : anti.isMatch l
        · rfl
        · exact absurd h ha
      simp [List.filter, hAM, ha', ih]

theorem firstMatchLoop_filter_anti (rule : CompiledRule) (anti : Pattern)
    (hanti : rule.antiPattern = some anti) :
    ∀ ls : List String,
      firstMatchLoop rule (ls.filter (fun l => !anti.isMatch l)) =
        firstMatchLoop rule ls := by
  intro ls
  induction ls with
  | nil => rfl
  | cons l ls ih =>
    have hAM : antiMatches rule l = anti.isMatch l := by
      rw [antiMatches, hanti]
    by_cases ha : anti.isMatch l = true
    · simp [List.filter, ha, firstMatchLoop, hAM, ih]
    · have ha' : anti.isMatch l = false := by
        cases h : anti.isMatch l
        · rfl
        · exact absurd h ha
      simp only [List.filter, ha', Bool.not_false, firstMatchLoop, hAM]
      cases rule.pattern.capturesFirst l with
      | none => simpa using ih
      | some m => simp

theorem collectMatches_filter_anti (rule : CompiledRule) (anti : Pattern)
    (hanti : rule.antiPattern = some anti) :
    ∀ ls : List String,
      collectMatches rule (ls.filter (fun l => !anti.isMatch l)) =
        collectMatches rule ls := by
  intro ls
  induction ls with
  | nil => rfl
  | cons l ls ih =>
    have hAM : antiMatches rule l = anti.isMatch l := by
      rw [antiMatches, hanti]
    by_cases ha : anti.isMatch l = true
    · simp [List.filter, ha, collectMatches, hAM, ih]
    · have ha' : anti.isMatch l = false := by
        cases h : anti.isMatch l
        · rfl
        · exact absurd h ha
      simp only [List.filter, ha', Bool.not_false, collectMatches, hAM]
      cases rule.pattern.capturesFirst l with
      | none => simpa using ih
      | some m => simp [ih]

/-- C6 (amended): in count, first-match and collect modes (`emit = None`),
lines matching the anti-pattern contribute nothing — deleting them from the
input does not change the rule's result.  (In emit mode the anti-pattern is
ignored; see the counterexample.) -/
theorem anti_pattern_skips_lines (rule : CompiledRule) (anti : Pattern)
    (hanti : rule.antiPattern = some anti) (hemit : rule.emit = none)
    (lines : List String) (results : List (String × String)) :
    apply_single_rule rule lines results =
      apply_single_rule rule (lines.filter (fun l => !anti.isMatch l)) results := by
  have hcount := count_filter_anti rule anti hanti lines
  have hfm := firstMatchLoop_filter_anti rule anti hanti lines
  have hcm := collectMatches_filter_anti rule anti hanti lines
  unfold apply_single_rule
  rw [hemit, hfm, hcm, ← hcount]

/-- A count-mode rule with an anti-pattern (the shape of the
`rule_count_with_anti_pattern` test in ingest.rs). -/
def countAntiRule : CompiledRule :=
  ⟨"extract.full_suite", substrPat "cargo test", some (substrPat "--filter"),
    "tool_commands", none, false, true, none⟩

/-- Witness for `anti_pattern_skips_lines` on a concrete count-mode rule. -/
theorem anti_pattern_skips_lines_witness :
    apply_single_rule countAntiRule
        ["cargo test", "cargo test --filter foo"] [] =
      apply_single_rule countAntiRule
        (["cargo test", "cargo test --filter foo"].filter
          (fun l => !(substrPat "--filter").isMatch l)) [] :=
  anti_pattern_skips_lines countAntiRule (substrPat "--filter") rfl rfl
    ["cargo test", "cargo test --filter foo"] []

theorem firstMatchLoop_none_of_no_match (rule : CompiledRule)
    (hcoh : ∀ s, rule.pattern.isMatch s = false →
      rule.pattern.capturesFirst s = none) :
    ∀ ls : List String, (∀ l ∈ ls, rule.pattern.isMatch l = false) →
      firstMatchLoop rule ls = none := by
  intro ls
  induction ls with
  | nil => intro _; rfl
  | cons l ls ih =>
    intro hno
    have hl : rule.pattern.capturesFirst l = none :=
      hcoh l (hno l (List.mem_cons_self l ls))
    have htl := ih (fun x hx => hno x (List.mem_cons_of_mem l hx))
    unfold firstMatchLoop
    rw [hl]
    by_cases ha : antiMatches rule l = true
    · simp [ha, htl]
    · simp only [Bool.not_eq_true] at ha
      simp [ha, htl]

theorem collectMatches_nil_of_no_match (rule : CompiledRule)
    (hcoh : ∀ s, rule.pattern.isMatch s = false →
      rule.pattern.capturesFirst s = none) :
    ∀ ls : List String, (∀ l ∈ ls, rule.pattern.isMatch l = false) →
      collectMatches rule ls = [] := by
  intro ls
  induction ls with
  | nil => intro _; rfl
  | cons l ls ih =>
    intro hno
    have hl : rule.pattern.capturesFirst l = none :=
      hcoh l (hno l (List.mem_cons_self l ls))
    have htl := ih (fun x hx => hno x (List.mem_cons_of_mem l hx))
    unfold collectMatches
    rw [hl]
    by_cases ha : antiMatches rule l = true
    · simp [ha, htl]
    · simp only [Bool.not_eq_true] at ha
      simp [ha, htl]

/-- C7: a count-mode rule always pushes exactly one `(kind, N)` result, with
`"0"` when nothing matched; emit, first-match and collect modes push a result
only when some line matched the pattern, and push nothing otherwise.  (The
coherence hypothesis says the compiled regex's `captures` cannot succeed where
`is_match` fails, which is true of any real regex.) -/
theorem rule_modes_spec (rule : CompiledRule) (lines : List String) :
    (rule.emit = none → rule.count = true →
      ∃ n : Nat, apply_single_rule rule lines [] = [(rule.kind, toString n)] ∧
        ((∀ l ∈ lines, rule.pattern.isMatch l = false) → n = 0)) ∧
    (rule.emit = none → rule.count = false →
      (∀ s, rule.pattern.isMatch s = false →
        rule.pattern.capturesFirst s = none) →
      (∀ l ∈ lines, rule.pattern.isMatch l = false) →
      apply_single_rule rule lines [] = []) ∧
    (∀ v, rule.emit = some v →
      (∀ l ∈ lines, rule.pattern.isMatch l = false) →
      apply_single_rule rule lines [] = []) := by
  refine ⟨?_, ?_, ?_⟩
  · intro hemit hc
    unfold apply_single_rule
    rw [hemit]
    simp only [hc, if_pos]
    refine ⟨(lines.filter (fun l =>
      rule.pattern.isMatch l && !(antiMatches rule l))).length, by simp, ?_⟩
    intro hno
    have : lines.filter (fun l =>
        rule.pattern.isMatch l && !(antiMatches rule l)) = [] := by
      apply List.filter_eq_nil_iff.mpr
      intro l hl
      simp [hno l hl]
    rw [this]
    rfl
  · intro hemit hc hcoh hno
    unfold apply_single_rule
    rw [hemit]
    simp only [hc]
    by_cases hf : rule.firstMatch
    · simp [hf, firstMatchLoop_none_of_no_match rule hcoh lines hno]
    · simp [hf, collectMatches_nil_of_no_match rule hcoh lines hno]
  · intro v hemit hno
    unfold apply_single_rule
    rw [hemit]
    have : lines.any rule.pattern.isMatch = false := by
      apply List.any_eq_false.mpr
      intro l hl
      simp [hno l hl]
    simp [this]

/-- A count-mode rule with no anti-pattern. -/
def countRule : CompiledRule :=
  ⟨"extract.test_runs", substrPat "cargo test", none,
    "tool_commands", none, false, true, none⟩

/-- An emit-mode rule. -/
def emitRule : CompiledRule :=
  ⟨"commit.detected", substrPat "bd-finish", none,
    "tool_commands", none, false, false, some (TomlValue.boolean true)⟩

/-- Witness for `rule_modes_spec`: a count rule pushes `"0"` on a
non-matching input; an emit rule pushes nothing on a non-matching input. -/
theorem rule_modes_spec_witness :
    (∃ n : Nat, apply_single_rule countRule ["cargo build"] [] =
        [("extract.test_runs", toString n)] ∧
      ((∀ l ∈ ["cargo build"], countRule.pattern.isMatch l = false) → n = 0)) ∧
    apply_single_rule emitRule ["cargo build"] [] = [] := by
  refine ⟨(rule_modes_spec countRule ["cargo build"]).1 rfl rfl, ?_⟩
  apply (rule_modes_spec emitRule ["cargo build"]).2.2 (TomlValue.boolean true) rfl
  intro l hl
  have : l = "cargo build" := by simpa using hl
  rw [this]
  decide

/-! ## db.rs — the observations table

The `observations` table has `session INTEGER PRIMARY KEY`, and
`upsert_observation` is an SQL `INSERT OR REPLACE`: any existing row with the
same primary key is deleted and the new row inserted. -/

/-- A row of the `observations` table (db.rs `Observation`). -/
structure ObservationRow where
  session : Int
  ts : String
  duration : Option Int
  outcome : Option String
  data : String
deriving DecidableEq, Repr

/-- `upsert_observation` (db.rs): `INSERT OR REPLACE INTO observations` keyed
on the `session` primary key. -/
def upsert_observation (table : List ObservationRow) (row : ObservationRow) :
    List ObservationRow :=
  table.filter (fun r => r.session != row.session) ++ [row]

/-- Number of observation rows stored for a session. -/
def countSession (table : List ObservationRow) (s : Int) : Nat :=
  (table.filter (fun r => r.session == s)).length

theorem filter_session_upsert_other (t : List ObservationRow)
    (r : ObservationRow) (s' : Int) (h : s' ≠ r.session) :
    (upsert_observation t r).filter (fun x => x.session == s') =
      t.filter (fun x => x.session == s') := by
  unfold upsert_observation
  rw [List.filter_append]
  have hr : List.filter (fun x => x.session == s') [r] = [] := by
    have hb : (r.session == s') = false := by
      simp
      omega
    simp [List.filter_cons, hb]
  rw [hr, List.append_nil]
  induction t with
  | nil => rfl
  | cons x xs ih =>
    by_cases hx : x.session = s'
    · have hb1 : (x.session != r.session) = true := by
        simp
        omega
      have hb2 : (x.session == s') = true := by simp [hx]
      simp [List.filter_cons, hb1, hb2, ih]
    · have hb2 : (x.session == s') = false := by simp [hx]
      by_cases hxr : x.session = r.session
      · have hb1 : (x.session != r.session) = false := by simp [hxr]
        simp [List.filter_cons, hb1, hb2, ih]
      · have hb1 : (x.session != r.session) = true := by simp [hxr]
        simp [List.filter_cons, hb1, hb2, ih]

theorem countSession_upsert_self (t : List ObservationRow) (r : ObservationRow) :
    countSession (upsert_observation t r) r.session = 1 := by
  unfold countSession upsert_observation
  rw [List.filter_append]
  have h1 : (t.filter (fun x => x.session != r.session)).filter
      (fun x => x.session == r.session) = [] := by
    induction t with
    | nil => rfl
    | cons x xs ih =>
      by_cases hx : x.session = r.session
      · have hb : (x.session != r.session) = false := by simp [hx]
        simp [List.filter_cons, hb, ih]
      · have hb : (x.session != r.session) = true := by simp [hx]
        have hb2 : (x.session == r.session) = false := by simp [hx]
        simp [List.filter_cons, hb, hb2, ih]
  rw [h1]
  simp [List.filter_cons]

/-- C4: any non-empty run of upserts for one session leaves exactly one
observation row for it (re-ingestion replaces rather than duplicates), and
the rows of every other session are untouched. -/
theorem observation_upsert_unique (rows : List ObservationRow) :
    ∀ (t : List ObservationRow) (s : Int), rows ≠ [] →
      (∀ r ∈ rows, r.session = s) →
      countSession (rows.foldl upsert_observation t) s = 1 ∧
      ∀ s', s' ≠ s →
        (rows.foldl upsert_observation t).filter (fun x => x.session == s') =
          t.filter (fun x => x.session == s') := by
  induction rows with
  | nil => intro t s hne _; exact absurd rfl hne
  | cons r rest ih =>
    intro t s _ hall
    have hr : r.session = s := hall r (List.mem_cons_self r rest)
    rw [List.foldl_cons]
    cases rest with
    | nil =>
      refine ⟨?_, ?_⟩
      · rw [List.foldl_nil, ← hr]
        exact countSession_upsert_self t r
      · intro s' hs'
        rw [List.foldl_nil]
        exact filter_session_upsert_other t r s' (by omega)
    | cons r2 rest2 =>
      have hall' : ∀ x ∈ r2 :: rest2, x.session = s :=
        fun x hx => hall x (List.mem_cons_of_mem r hx)
      have h := ih (upsert_observation t r) s (by simp) hall'
      refine ⟨h.1, ?_⟩
      intro s' hs'
      rw [h.2 s' hs']
      exact filter_session_upsert_other t r s' (by omega)

/-- Witness for `observation_upsert_unique`: ingesting session 1 twice leaves
one row for it and the row of session 2 untouched. -/
theorem observation_upsert_unique_witness :
    countSession
      ([⟨1, "t1", none, none, "d1"⟩, ⟨1, "t2", none, none, "d2"⟩].foldl
        upsert_observation [⟨2, "t0", none, none, "d0"⟩]) 1 = 1 ∧
    ∀ s', s' ≠ (1 : Int) →
      (([⟨1, "t1", none, none, "d1"⟩, ⟨1, "t2", none, none, "d2"⟩].foldl
        upsert_observation [⟨2, "t0", none, none, "d0"⟩]).filter
          (fun x => x.session == s')) =
        ([⟨2, "t0", none, none, "d0"⟩] : List ObservationRow).filter
          (fun x => x.session == s') :=
  observation_upsert_unique
    [⟨1, "t1", none, none, "d1"⟩, ⟨1, "t2", none, none, "d2"⟩]
    [⟨2, "t0", none, none, "d0"⟩] 1 (by simp) (by intro r hr; fin_cases hr <;> rfl)

/-! ## ingest.rs — one timestamp per ingestion

`ingest_session_with_rules` computes `ts` once (`chrono::Utc::now()`...) and
passes that one string to every `insert_event_with_ts` call and to
`upsert_observation`.  The write-set of a single successful ingestion is
embedded as a pure function of the adapter's metrics, the exit code and the
rule results; the JSON value type of the metrics is kept abstract (`V`) along
with its renderings, which the timestamp claim does not depend on. -/

/-- A row of the `events` table as written by `insert_event_with_ts`. -/
structure EventRow where
  ts : String
  session : Int
  kind : String
  value : Option String
  tags : Option String
deriving DecidableEq, Repr

/-- `insert_event_with_ts` (db.rs): inserts a row carrying exactly the given
timestamp. -/
def insert_event_with_ts (ts : String) (session : Int) (kind : String)
    (value : Option String) (tags : Option String) : EventRow :=
  ⟨ts, session, kind, value, tags⟩

/-- The database writes of one successful `ingest_session_with_rules` call
(src/ingest.rs): built-in metric events, the optional `session.exit_code`
event, rule-result events, then the observation upsert.  `valueToEventString`,
`asU64` and `buildObservationData` abstract `value_to_event_string`,
`Value::as_u64` and `build_observation_data`. -/
def ingest_writes {V : Type} (valueToEventString : V → String)
    (asU64 : V → Option Nat)
    (buildObservationData :
      List (String × V) → Option Int → List (String × String) → String)
    (ts : String) (session : Int)
    (builtinMetrics : List (String × V)) (exitCode : Option Int)
    (ruleResults : List (String × String)) : List EventRow × ObservationRow :=
  let builtinEvents := builtinMetrics.map (fun kv =>
    insert_event_with_ts ts session kv.1 (some (valueToEventString kv.2)) none)
  let exitEvents :=
    match exitCode with
    | some code =>
      [insert_event_with_ts ts session "session.exit_code"
        (some (toString code)) none]
    | none => []
  let ruleEvents := ruleResults.map (fun kv =>
    insert_event_with_ts ts session kv.1 (some kv.2) none)
  let durationMs := ((builtinMetrics.find?
    (fun kv => kv.1 == "session.duration_ms")).bind
      (fun kv => asU64 kv.2)).getD 0
  let data := buildObservationData builtinMetrics exitCode ruleResults
  (builtinEvents ++ exitEvents ++ ruleEvents,
   ⟨session, ts, some ((durationMs / 1000 : Nat) : Int), none, data⟩)

/-- C8: every event row written by a single ingestion carries the one
timestamp computed for that call, and the observation row written by the same
call carries it too. -/
theorem ingest_single_timestamp {V : Type} (f : V → String)
    (g : V → Option Nat)
    (hdata : List (String × V) → Option Int → List (String × String) → String)
    (ts : String) (session : Int) (bm : List (String × V)) (ec : Option Int)
    (rr : List (String × String)) :
    (∀ e ∈ (ingest_writes f g hdata ts session bm ec rr).1, e.ts = ts) ∧
    (ingest_writes f g hdata ts session bm ec rr).2.ts = ts := by
  constructor
  · intro e he
    simp only [ingest_writes, List.mem_append, List.mem_map,
      insert_event_with_ts] at he
    rcases he with (⟨kv, _, hkv⟩ | hexit) | ⟨kv, _, hkv⟩
    · rw [← hkv]
    · cases ec with
      | some code =>
        simp at hexit
        rw [hexit]
      | none => simp at hexit
    · rw [← hkv]
  · rfl

/-! ## adapters/aider.rs — turn counting

`parse_aider_output` reads the file line by line and counts assistant
response blocks with a small state machine; the cost and tool-command
extraction on each line touch neither the state machine nor `turns_total`
and are omitted.  The claim is settled at the level of the line list. -/

/-- Is this line a user prompt (starts with `"> "` or is exactly `">"`)? -/
def aiderIsUserPrompt (line : String) : Bool :=
  line.data.take 2 == ['>', ' '] || line == ">"

/-- The loop state of `parse_aider_output`: `in_assistant_block`,
`current_assistant_text`, `turns_total` and the collected `text_blocks`. -/
structure AiderState where
  inAssistantBlock : Bool
  currentAssistantText : List String
  turnsTotal : Nat
  textBlocks : List String
deriving Repr

/-- One iteration of the line loop of `parse_aider_output`. -/
def aiderStep (st : AiderState) (line : String) : AiderState :=
  if aiderIsUserPrompt line then
    if st.inAssistantBlock && !st.currentAssistantText.isEmpty then
      { inAssistantBlock := false, currentAssistantText := [],
        turnsTotal := st.turnsTotal + 1,
        textBlocks := st.textBlocks ++
          [String.intercalate "\n" st.currentAssistantText] }
    else
      { st with inAssistantBlock := false }
  else if !(line == "") then
    { st with inAssistantBlock := true,
              currentAssistantText := st.currentAssistantText ++ [line] }
  else
    st

/-- The final flush after the loop: an open non-empty assistant block counts
as one more turn. -/
def aiderFinalTurns (st : AiderState) : Nat :=
  if st.inAssistantBlock && !st.currentAssistantText.isEmpty then
    st.turnsTotal + 1
  else st.turnsTotal

/-- `turns.total` as `extract_builtin_metrics` reports it for a file whose
lines are `lines`. -/
def aiderTurnsTotal (lines : List String) : Nat :=
  aiderFinalTurns (lines.foldl aiderStep ⟨false, [], 0, []⟩)

/-- A line that extends an assistant block: non-empty and not a prompt. -/
def aiderBlockLine (line : String) : Bool :=
  !(aiderIsUserPrompt line) && !(line == "")

/-- The state invariant at block boundaries: either no block is open and the
buffer is empty, or a block is open with a non-empty buffer. -/
def aiderInv (st : AiderState) : Prop :=
  (st.inAssistantBlock = false ∧ st.currentAssistantText = []) ∨
  (st.inAssistantBlock = true ∧ st.currentAssistantText ≠ [])

theorem aider_fold_block (b : List String) :
    ∀ st : AiderState, (∀ l ∈ b, aiderBlockLine l = true) →
      b.foldl aiderStep st =
        { st with
          inAssistantBlock := st.inAssistantBlock || !b.isEmpty,
          currentAssistantText := st.currentAssistantText ++ b } := by
  induction b with
  | nil => intro st _; simp
  | cons l ls ih =>
    intro st hb
    have hl : aiderBlockLine l = true := hb l (List.mem_cons_self l ls)
    have hprompt : aiderIsUserPrompt l = false := by
      unfold aiderBlockLine at hl
      cases h : aiderIsUserPrompt l
      · rfl
      · rw [h] at hl
        simp at hl
    have hne : (l == "") = false := by
      unfold aiderBlockLine at hl
      cases h : (l == "")
      · rfl
      · rw [h] at hl
        simp at hl
    rw [List.foldl_cons]
    rw [ih _ (fun x hx => hb x (List.mem_cons_of_mem l hx))]
    unfold aiderStep
    rw [hprompt, hne]
    simp

theorem aiderFinalTurns_step_prompt (st : AiderState) (p : String)
    (hp : aiderIsUserPrompt p = true) :
    (aiderStep st p).turnsTotal = aiderFinalTurns st ∧
    (aiderStep st p).inAssistantBlock = false := by
  unfold aiderStep aiderFinalTurns
  rw [hp]
  by_cases h : (st.inAssistantBlock && !st.currentAssistantText.isEmpty) = true
  · simp [h]
  · simp only [Bool.not_eq_true] at h
    simp [h]

theorem aider_fold_pairs (pairs : List (String × List String)) :
    ∀ st : AiderState, aiderInv st →
      (∀ pb ∈ pairs, aiderIsUserPrompt pb.1 = true ∧ pb.2 ≠ [] ∧
        ∀ l ∈ pb.2, aiderBlockLine l = true) →
      aiderFinalTurns
          ((pairs.flatMap (fun pb => pb.1 :: pb.2)).foldl aiderStep st) =
        aiderFinalTurns st + pairs.length := by
  induction pairs with
  | nil => intro st _ _; simp
  | cons pb rest ih =>
    intro st hinv hps
    obtain ⟨hp, hbne, hbl⟩ := hps pb (List.mem_cons_self pb rest)
    rw [List.flatMap_cons, List.foldl_append, List.foldl_cons]
    have hstep := aiderFinalTurns_step_prompt st pb.1 hp
    have hcur : (aiderStep st pb.1).currentAssistantText = [] ∨
        (aiderStep st pb.1).currentAssistantText = st.currentAssistantText := by
      unfold aiderStep
      rw [hp]
      by_cases h : (st.inAssistantBlock && !st.currentAssistantText.isEmpty) = true
      · simp [h]
      · simp [h]
    have hcur' : (aiderStep st pb.1).currentAssistantText = [] := by
      rcases hcur with h | h
      · exact h
      · rcases hinv with ⟨_, hc⟩ | ⟨hb, hc⟩
        · rw [h, hc]
        · exfalso
          unfold aiderStep at h
          rw [hp] at h
          have hcb : (st.inAssistantBlock && !st.currentAssistantText.isEmpty)
              = true := by
            rw [hb]
            simp [hc]
          rw [if_pos hcb] at h
          simp at h
          exact hc h
    have hblock := aider_fold_block pb.2 (aiderStep st pb.1) hbl
    rw [hblock]
    have hbnil : pb.2.isEmpty = false := by
      cases h : pb.2
      · exact absurd h hbne
      · rfl
    set st2 : AiderState :=
      { aiderStep st pb.1 with
        inAssistantBlock := (aiderStep st pb.1).inAssistantBlock || !pb.2.isEmpty,
        currentAssistantText := (aiderStep st pb.1).currentAssistantText ++ pb.2 }
      with hst2
    have hinv2 : aiderInv st2 := by
      right
      constructor
      · rw [hst2]
        simp [hbnil]
      · rw [hst2]
        simp only []
        rw [hcur']
        simpa using hbne
    have hrest := ih st2 hinv2 (fun x hx => hps x (List.mem_cons_of_mem pb hx))
    rw [hrest]
    have hb2 : (st2.inAssistantBlock && !st2.currentAssistantText.isEmpty)
        = true := by
      rw [hst2]
      simp only [hbnil]
      rw [hcur']
      simp [hbne]
    have hfin2 : aiderFinalTurns st2 = aiderFinalTurns st + 1 := by
      calc aiderFinalTurns st2 = st2.turnsTotal + 1 := by
            unfold aiderFinalTurns
            rw [if_pos hb2]
        _ = aiderFinalTurns st + 1 := by
            rw [hst2]
            show (aiderStep st pb.1).turnsTotal + 1 = aiderFinalTurns st + 1
            rw [hstep.1]
    rw [hfin2, List.length_cons]
    omega

/-- C9: for content made of K user-prompt lines each followed by a non-empty
assistant block, `turns.total = K`; a leading assistant block before the
first prompt adds exactly one; a bare final prompt with no following block
contributes nothing (so the trailing block after the last prompt accounts
for exactly one of the K). -/
theorem aider_turns_spec (pairs : List (String × List String))
    (hps : ∀ pb ∈ pairs, aiderIsUserPrompt pb.1 = true ∧ pb.2 ≠ [] ∧
      ∀ l ∈ pb.2, aiderBlockLine l = true) :
    aiderTurnsTotal (pairs.flatMap (fun pb => pb.1 :: pb.2)) = pairs.length ∧
    (∀ lead : List String, lead ≠ [] → (∀ l ∈ lead, aiderBlockLine l = true) →
      aiderTurnsTotal (lead ++ pairs.flatMap (fun pb => pb.1 :: pb.2)) =
        pairs.length + 1) ∧
    (∀ p : String, aiderIsUserPrompt p = true →
      aiderTurnsTotal (pairs.flatMap (fun pb => pb.1 :: pb.2) ++ [p]) =
        pairs.length) := by
  have hinv0 : aiderInv ⟨false, [], 0, []⟩ := Or.inl ⟨rfl, rfl⟩
  have hbase : aiderTurnsTotal (pairs.flatMap (fun pb => pb.1 :: pb.2)) =
      pairs.length := by
    unfold aiderTurnsTotal
    rw [aider_fold_pairs pairs _ hinv0 hps]
    simp [aiderFinalTurns]
  refine ⟨hbase, ?_, ?_⟩
  · intro lead hlne hll
    unfold aiderTurnsTotal
    rw [List.foldl_append]
    rw [aider_fold_block lead _ hll]
    have hlnil : lead.isEmpty = false := by
      cases h : lead
      · exact absurd h hlne
      · rfl
    set st1 : AiderState :=
      { (⟨false, [], 0, []⟩ : AiderState) with
        inAssistantBlock := false || !lead.isEmpty,
        currentAssistantText := ([] : List String) ++ lead }
      with hst1
    have hinv1 : aiderInv st1 := by
      right
      constructor
      · rw [hst1]
        simp [hlnil]
      · rw [hst1]
        simpa using hlne
    rw [aider_fold_pairs pairs st1 hinv1 hps]
    have : aiderFinalTurns st1 = 1 := by
      unfold aiderFinalTurns
      have hb : (st1.inAssistantBlock && !st1.currentAssistantText.isEmpty)
          = true := by
        rw [hst1]
        simp [hlnil, hlne]
      rw [if_pos hb, hst1]
    rw [this]
    omega
  · intro p hp
    unfold aiderTurnsTotal
    rw [List.foldl_append, List.foldl_cons, List.foldl_nil]
    have hstep := aiderFinalTurns_step_prompt
      ((pairs.flatMap (fun pb => pb.1 :: pb.2)).foldl aiderStep
        ⟨false, [], 0, []⟩) p hp
    have : aiderFinalTurns (aiderStep
        ((pairs.flatMap (fun pb => pb.1 :: pb.2)).foldl aiderStep
          ⟨false, [], 0, []⟩) p) =
        (aiderStep ((pairs.flatMap (fun pb => pb.1 :: pb.2)).foldl aiderStep
          ⟨false, [], 0, []⟩) p).turnsTotal := by
      unfold aiderFinalTurns
      rw [hstep.2]
      simp
    rw [this, hstep.1]
    rw [show aiderFinalTurns ((pairs.flatMap (fun pb => pb.1 :: pb.2)).foldl
        aiderStep ⟨false, [], 0, []⟩) = aiderTurnsTotal
        (pairs.flatMap (fun pb => pb.1 :: pb.2)) from rfl]
    rw [hbase]

/-- Witness for `aider_turns_spec` on a two-turn chat log, with and without a
leading startup block and with a bare trailing prompt. -/
theorem aider_turns_spec_witness :
    aiderTurnsTotal
      ([("> Fix the bug", ["I fixed it.", "Done."]),
        ("> Thanks", ["You did it!"])].flatMap (fun pb => pb.1 :: pb.2)) = 2 ∧
    aiderTurnsTotal (["Aider v0.50.0"] ++
      [("> Fix the bug", ["I fixed it.", "Done."]),
        ("> Thanks", ["You did it!"])].flatMap (fun pb => pb.1 :: pb.2)) =
      2 + 1 ∧
    aiderTurnsTotal
      ([("> Fix the bug", ["I fixed it.", "Done."]),
        ("> Thanks", ["You did it!"])].flatMap (fun pb => pb.1 :: pb.2) ++
        [">"]) = 2 := by
  have h := aider_turns_spec
    [("> Fix the bug", ["I fixed it.", "Done."]), ("> Thanks", ["You did it!"])]
    (by decide)
  exact ⟨h.1, h.2.1 ["Aider v0.50.0"] (by decide) (by decide),
    h.2.2 ">" (by decide)⟩

/-! ## compress.rs — session compaction

The sessions directory is a list of named files; `read_dir` is the initial
name listing, `fs::write` overwrites-or-creates, `fs::remove_file` deletes.
zstd is external code, so the encoder is a parameter; the decompression claim
takes an inverse `decode` as hypothesis. -/

/-- A file: name and byte contents. -/
structure FsFile where
  name : String
  content : List Nat
deriving DecidableEq, Repr

/-- `std::fs::read`: the contents of the first (for well-formed directories,
the only) entry with this name. -/
def fsRead (dir : List FsFile) (name : String) : Option (List Nat) :=
  (dir.find? (fun f => f.name == name)).map (fun f => f.content)

/-- `std::fs::write`: overwrite an existing entry or create a new one. -/
def fsWrite (dir : List FsFile) (name : String) (content : List Nat) :
    List FsFile :=
  if dir.any (fun f => f.name == name) then
    dir.map (fun f => if f.name == name then ⟨name, content⟩ else f)
  else
    dir ++ [⟨name, content⟩]

/-- `std::fs::remove_file`. -/
def fsRemove (dir : List FsFile) (name : String) : List FsFile :=
  dir.filter (fun f => f.name != name)

/-- Rust `str::ends_with` on the character level. -/
def strEndsWith (s suffix : String) : Bool :=
  s.data.drop (s.data.length - suffix.data.length) == suffix.data

/-- `file_name.strip_suffix(".jsonl")` for a name already known to end in
`".jsonl"` (the code checks `ends_with` first). -/
def sessionStem (name : String) : String :=
  ⟨name.data.take (name.data.length - 6)⟩

/-- Digits of a decimal numeral folded to a `Nat`. -/
def digitsToNat (cs : List Char) : Nat :=
  cs.foldl (fun acc c => acc * 10 + (c.toNat - 48)) 0

/-- Rust `str::parse::<u64>`: an optional leading `+`, then one or more ASCII
digits, failing on overflow past `u64::MAX`. -/
def rustParseU64 (s : String) : Option Nat :=
  let t := if s.data.take 1 == ['+'] then (⟨s.data.drop 1⟩ : String) else s
  if !t.data.isEmpty && t.data.all (fun c => c.isDigit) then
    if digitsToNat t.data < 2 ^ 64 then some (digitsToNat t.data) else none
  else none

/-- `path.with_extension("jsonl.zst")` — for every name of the form
`stem ++ ".jsonl"` with non-empty stem (which every compressed name has,
since its stem parses as a number) this is `stem ++ ".jsonl.zst"`. -/
def destName (name : String) : String :=
  sessionStem name ++ ".jsonl.zst"

/-- The per-entry guard of `compress_old_sessions`: an uncompressed `.jsonl`
file whose stem parses as an iteration number `≤ threshold`. -/
def compressCandidate (threshold : Nat) (name : String) : Bool :=
  strEndsWith name ".jsonl" && !(strEndsWith name ".jsonl.zst") &&
    (match rustParseU64 (sessionStem name) with
     | some n => decide (n ≤ threshold)
     | none => false)

/-- `compress_file` (compress.rs): read the file, write the zstd-encoded
bytes to `{path}.zst`, remove the original.  A read error leaves the
directory unchanged (the caller only logs it). -/
def compress_file (encode : List Nat → List Nat) (dir : List FsFile)
    (name : String) : List FsFile :=
  match fsRead dir name with
  | none => dir
  | some input => fsRemove (fsWrite dir (destName name) (encode input)) name

/-- One iteration of the entry loop of `compress_old_sessions`. -/
def compressStep (encode : List Nat → List Nat) (threshold : Nat)
    (st : List FsFile) (name : String) : List FsFile :=
  if compressCandidate threshold name then compress_file encode st name else st

/-- `compress_old_sessions` (compress.rs): no-op when `compress_after = 0` or
`current_iteration < compress_after`; otherwise each directory entry from the
initial listing whose name passes the guard is compressed in turn. -/
def compress_old_sessions (encode : List Nat → List Nat) (dir : List FsFile)
    (currentIteration compressAfter : Nat) : List FsFile :=
  if compressAfter = 0 then dir
  else if currentIteration < compressAfter then dir
  else
    (dir.map (fun f => f.name)).foldl
      (compressStep encode (currentIteration - compressAfter)) dir

theorem strEndsWith_append_self (w suffix : String) :
    strEndsWith (w ++ suffix) suffix = true := by
  unfold strEndsWith
  rw [String.data_append, List.length_append,
    Nat.add_sub_cancel, List.drop_left]
  simp

theorem append_zst_not_jsonl (w : String) :
    strEndsWith (w ++ ".jsonl.zst") ".jsonl" = false := by
  unfold strEndsWith
  rw [String.data_append, List.length_append]
  have hlen : w.data.length + (".jsonl.zst".data).length - (".jsonl".data).length
      = w.data.length + 4 := by
    simp
  rw [hlen, ← List.drop_drop, List.drop_left]
  decide

theorem strEndsWith_concat (s suffix : String)
    (h : strEndsWith s suffix = true) :
    s = (⟨s.data.take (s.data.length - suffix.data.length)⟩ : String)
      ++ suffix := by
  unfold strEndsWith at h
  have hdrop : s.data.drop (s.data.length - suffix.data.length) = suffix.data :=
    by exact eq_of_beq h
  apply String.ext
  rw [String.data_append]
  conv_lhs => rw [← List.take_append_drop
    (s.data.length - suffix.data.length) s.data]
  rw [hdrop]

theorem string_append_cancel_right (a b c : String) (h : a ++ c = b ++ c) :
    a = b := by
  apply String.ext
  have hd : a.data ++ c.data = b.data ++ c.data := by
    rw [← String.data_append, ← String.data_append, h]
  exact List.append_left_injective c.data hd

theorem cand_endsWith (th : Nat) (name : String)
    (h : compressCandidate th name = true) :
    strEndsWith name ".jsonl" = true ∧
    strEndsWith name ".jsonl.zst" = false := by
  unfold compressCandidate at h
  simp only [Bool.and_eq_true, Bool.not_eq_true'] at h
  exact ⟨h.1.1, h.1.2⟩

theorem cand_shape (th : Nat) (name : String)
    (h : compressCandidate th name = true) :
    name = sessionStem name ++ ".jsonl" := by
  have he := (cand_endsWith th name h).1
  have := strEndsWith_concat name ".jsonl" he
  rw [show ((".jsonl" : String).data.length) = 6 from rfl] at this
  exact this

theorem dest_endsWith_zst (n : String) :
    strEndsWith (destName n) ".jsonl.zst" = true :=
  strEndsWith_append_self (sessionStem n) ".jsonl.zst"

theorem dest_not_endsWith_jsonl (n : String) :
    strEndsWith (destName n) ".jsonl" = false :=
  append_zst_not_jsonl (sessionStem n)

theorem dest_not_cand (th : Nat) (n : String) :
    compressCandidate th (destName n) = false := by
  unfold compressCandidate
  rw [dest_not_endsWith_jsonl]
  rfl

theorem cand_ne_dest (th : Nat) (a n : String)
    (ha : compressCandidate th a = true) : a ≠ destName n := by
  intro heq
  have h1 := (cand_endsWith th a ha).2
  have h2 := dest_endsWith_zst n
  rw [← heq] at h2
  rw [h1] at h2
  exact Bool.false_ne_true h2

theorem dest_inj (th : Nat) (a b : String)
    (ha : compressCandidate th a = true)
    (hb : compressCandidate th b = true)
    (h : destName a = destName b) : a = b := by
  have hstem : sessionStem a = sessionStem b :=
    string_append_cancel_right _ _ ".jsonl.zst" h
  rw [cand_shape th a ha, cand_shape th b hb, hstem]

theorem fsWrite_mem_of_ne (dir : List FsFile) (w : String) (c : List Nat)
    (f : FsFile) (hf : f ∈ dir) (hne : f.name ≠ w) :
    f ∈ fsWrite dir w c := by
  unfold fsWrite
  have hb : (f.name == w) = false := by simp [hne]
  split
  · exact List.mem_map.mpr ⟨f, hf, by simp [hb]⟩
  · exact List.mem_append_left _ hf

theorem fsRemove_mem_of_ne (dir : List FsFile) (n : String) (f : FsFile)
    (hf : f ∈ dir) (hne : f.name ≠ n) : f ∈ fsRemove dir n := by
  unfold fsRemove
  exact List.mem_filter.mpr ⟨hf, by simp [hne]⟩

theorem fsWrite_mem_self (dir : List FsFile) (w : String) (c : List Nat) :
    (⟨w, c⟩ : FsFile) ∈ fsWrite dir w c := by
  unfold fsWrite
  split
  · rename_i hany
    obtain ⟨g, hg, hgw⟩ := List.any_eq_true.mp hany
    exact List.mem_map.mpr ⟨g, hg, by simp [hgw]⟩
  · exact List.mem_append_right _ (List.mem_singleton.mpr rfl)

theorem fsWrite_mem_elim (dir : List FsFile) (w : String) (c : List Nat)
    (f : FsFile) (hf : f ∈ fsWrite dir w c) : f ∈ dir ∨ f.name = w := by
  unfold fsWrite at hf
  split at hf
  · obtain ⟨g, hg, hgf⟩ := List.mem_map.mp hf
    by_cases hgw : (g.name == w) = true
    · right
      rw [if_pos hgw] at hgf
      rw [← hgf]
    · left
      rw [if_neg hgw] at hgf
      rw [← hgf]
      exact hg
  · rcases List.mem_append.mp hf with h | h
    · exact Or.inl h
    · right
      rw [List.mem_singleton.mp h]

theorem fsRemove_mem_elim (dir : List FsFile) (n : String) (f : FsFile)
    (hf : f ∈ fsRemove dir n) : f ∈ dir ∧ f.name ≠ n := by
  unfold fsRemove at hf
  have h := List.mem_filter.mp hf
  refine ⟨h.1, ?_⟩
  have := h.2
  simpa using this

theorem fsRead_of_nodup (dir : List FsFile) (f : FsFile)
    (hnodup : (dir.map (fun f => f.name)).Nodup) (hf : f ∈ dir) :
    fsRead dir f.name = some f.content := by
  induction dir with
  | nil => exact absurd hf (List.not_mem_nil f)
  | cons g gs ih =>
    rcases List.mem_cons.mp hf with hfg | hfgs
    · rw [hfg]
      unfold fsRead
      rw [List.find?_cons_of_pos _ (by simp)]
      rfl
    · have hgname : g.name ≠ f.name := by
        intro heq
        have h1 : g.name ∈ gs.map (fun f => f.name) := by
          rw [heq]
          exact List.mem_map_of_mem _ hfgs
        rw [List.map_cons, List.nodup_cons] at hnodup
        exact hnodup.1 h1
      unfold fsRead
      rw [List.find?_cons_of_neg _ (by simp [hgname])]
      have hnodup' : (gs.map (fun f => f.name)).Nodup := by
        rw [List.map_cons, List.nodup_cons] at hnodup
        exact hnodup.2
      exact ih hnodup' hfgs

theorem fsRead_write_ne (dir : List FsFile) (w : String) (c : List Nat)
    (x : String) (hx : x ≠ w) : fsRead (fsWrite dir w c) x = fsRead dir x := by
  unfold fsWrite
  split
  · rename_i hany
    clear hany
    unfold fsRead
    congr 1
    induction dir with
    | nil => rfl
    | cons g gs ih =>
      rw [List.map_cons]
      by_cases hgw : (g.name == w) = true
      · have hgwname : g.name = w := by simpa using hgw
        have h1 : ((⟨w, c⟩ : FsFile).name == x) = false := by
          simp [Ne.symm hx]
        have h2 : (g.name == x) = false := by
          rw [hgwname]
          simp [Ne.symm hx]
        rw [if_pos hgw]
        simp only [List.find?, h1, h2]
        exact ih
      · rw [if_neg hgw]
        cases hgx : (g.name == x)
        · simp only [List.find?, hgx]
          exact ih
        · simp only [List.find?, hgx]
  · rename_i hany
    clear hany
    unfold fsRead
    congr 1
    induction dir with
    | nil =>
      rw [List.nil_append]
      have h1 : ((⟨w, c⟩ : FsFile).name == x) = false := by
        simp [Ne.symm hx]
      simp only [List.find?, h1]
    | cons g gs ih =>
      rw [List.cons_append]
      cases hgx : (g.name == x)
      · simp only [List.find?, hgx]
        exact ih
      · simp only [List.find?, hgx]

theorem fsRead_remove_ne (dir : List FsFile) (n : String) (x : String)
    (hx : x ≠ n) : fsRead (fsRemove dir n) x = fsRead dir x := by
  unfold fsRemove fsRead
  congr 1
  induction dir with
  | nil => rfl
  | cons g gs ih =>
    cases hgn : (g.name != n)
    · have hgname : g.name = n := by simpa using hgn
      have hgx : (g.name == x) = false := by
        rw [hgname]
        simp [Ne.symm hx]
      simp only [List.filter, hgn, List.find?, hgx]
      exact ih
    · simp only [List.filter, hgn]
      cases hgx : (g.name == x)
      · simp only [List.find?, hgx]
        exact ih
      · simp only [List.find?, hgx]

theorem fold_preserves (encode : List Nat → List Nat) (th : Nat)
    (ns : List String) :
    ∀ (st : List FsFile) (f : FsFile), f ∈ st →
      compressCandidate th f.name = false →
      (∀ n ∈ ns, compressCandidate th n = true → destName n ≠ f.name) →
      f ∈ ns.foldl (compressStep encode th) st := by
  induction ns with
  | nil => intro st f hf _ _; exact hf
  | cons n ns ih =>
    intro st f hf hcand hdest
    rw [List.foldl_cons]
    apply ih _ f ?_ hcand
      (fun m hm hcm => hdest m (List.mem_cons_of_mem n hm) hcm)
    unfold compressStep
    by_cases hcn : compressCandidate th n = true
    · rw [if_pos hcn]
      unfold compress_file
      cases hread : fsRead st n with
      | none => exact hf
      | some input =>
        apply fsRemove_mem_of_ne
        · apply fsWrite_mem_of_ne _ _ _ _ hf
          intro heq
          exact hdest n (List.mem_cons_self n ns) hcn heq.symm
        · intro heq
          rw [heq] at hcand
          rw [hcand] at hcn
          exact Bool.false_ne_true hcn
    · rw [if_neg hcn]
      exact hf

theorem compressStep_mem_elim (encode : List Nat → List Nat) (th : Nat)
    (st : List FsFile) (n : String) (g : FsFile)
    (hg : g ∈ compressStep encode th st n) :
    g ∈ st ∨ (compressCandidate th n = true ∧ g.name = destName n) := by
  unfold compressStep at hg
  by_cases hcn : compressCandidate th n = true
  · rw [if_pos hcn] at hg
    unfold compress_file at hg
    cases hread : fsRead st n with
    | none =>
      rw [hread] at hg
      exact Or.inl hg
    | some input =>
      rw [hread] at hg
      have h1 := fsRemove_mem_elim _ _ _ hg
      rcases fsWrite_mem_elim _ _ _ _ h1.1 with h2 | h2
      · exact Or.inl h2
      · exact Or.inr ⟨hcn, h2⟩
  · rw [if_neg hcn] at hg
    exact Or.inl hg

theorem fold_no_new_name (encode : List Nat → List Nat) (th : Nat)
    (ns : List String) :
    ∀ (st : List FsFile) (x : String), (∀ f ∈ st, f.name ≠ x) →
      (∀ n ∈ ns, compressCandidate th n = true → destName n ≠ x) →
      ∀ f ∈ ns.foldl (compressStep encode th) st, f.name ≠ x := by
  induction ns with
  | nil => intro st x h1 _ f hf; exact h1 f hf
  | cons n ns ih =>
    intro st x h1 h2 f hf
    rw [List.foldl_cons] at hf
    refine ih _ x ?_
      (fun m hm hcm => h2 m (List.mem_cons_of_mem n hm) hcm) f hf
    intro g hg
    rcases compressStep_mem_elim encode th st n g hg with hin | ⟨hcn, hname⟩
    · exact h1 g hin
    · rw [hname]
      exact h2 n (List.mem_cons_self n ns) hcn

theorem fold_compress_cand (encode : List Nat → List Nat) (th : Nat)
    (ns : List String) :
    ∀ (st : List FsFile) (f : FsFile),
      compressCandidate th f.name = true →
      f.name ∈ ns → ns.Nodup →
      (∀ n ∈ ns, compressCandidate th n = true →
        destName n = destName f.name → n = f.name) →
      fsRead st f.name = some f.content →
      (⟨destName f.name, encode f.content⟩ : FsFile) ∈
          ns.foldl (compressStep encode th) st ∧
        ∀ g ∈ ns.foldl (compressStep encode th) st, g.name ≠ f.name := by
  induction ns with
  | nil => intro st f _ hmem; exact absurd hmem (List.not_mem_nil f.name)
  | cons n ns ih =>
    intro st f hcand hmem hnodup hinj hread
    rw [List.nodup_cons] at hnodup
    rw [List.foldl_cons]
    by_cases hn : n = f.name
    · subst hn
      have hstep : compressStep encode th st f.name =
          fsRemove (fsWrite st (destName f.name) (encode f.content)) f.name := by
        unfold compressStep
        rw [if_pos hcand]
        unfold compress_file
        rw [hread]
      rw [hstep]
      set st' := fsRemove (fsWrite st (destName f.name) (encode f.content))
        f.name with hst'
      have hdne : destName f.name ≠ f.name :=
        (cand_ne_dest th f.name f.name hcand).symm
      have hfnew : (⟨destName f.name, encode f.content⟩ : FsFile) ∈ st' := by
        rw [hst']
        exact fsRemove_mem_of_ne _ _ _ (fsWrite_mem_self st _ _) hdne
      have hnames : ∀ g ∈ st', g.name ≠ f.name := by
        intro g hg
        exact (fsRemove_mem_elim _ _ _ hg).2
      constructor
      · apply fold_preserves encode th ns st'
          (⟨destName f.name, encode f.content⟩ : FsFile) hfnew
          (dest_not_cand th f.name)
        intro m hm hcm heq
        have hmn : m = f.name :=
          hinj m (List.mem_cons_of_mem f.name hm) hcm heq
        rw [hmn] at hm
        exact hnodup.1 hm
      · apply fold_no_new_name encode th ns st' f.name hnames
        intro m hm hcm
        exact (cand_ne_dest th f.name m hcand).symm
    · have hread' : fsRead (compressStep encode th st n) f.name =
          some f.content := by
        unfold compressStep
        by_cases hcn : compressCandidate th n = true
        · rw [if_pos hcn]
          unfold compress_file
          cases hr : fsRead st n with
          | none => exact hread
          | some input =>
            rw [fsRead_remove_ne _ _ _ (fun h => hn h.symm),
              fsRead_write_ne _ _ _ _ (cand_ne_dest th f.name n hcand)]
            exact hread
        · rw [if_neg hcn]
          exact hread
      exact ih (compressStep encode th st n) f hcand
        (by rcases List.mem_cons.mp hmem with h | h
            · exact absurd h.symm hn
            · exact h)
        hnodup.2
        (fun m hm hcm heq => hinj m (List.mem_cons_of_mem n hm) hcm heq)
        hread'

/-- C5 (amended): with `compress_after = 0` nothing changes at all.  With
`0 < compress_after ≤ current_iteration`, distinct file names and a zstd
decoder inverting the encoder: every `{N}.jsonl` entry whose stem parses with
`N ≤ current_iteration - compress_after` is replaced by `{N}.jsonl.zst`
holding the encoded bytes (which decode back to the original exactly), and
its old name is gone; every other entry is untouched provided it is not the
`.zst` target of some compressed file — a pre-existing `{N}.jsonl.zst` whose
`{N}.jsonl` sibling is compressed is overwritten (see the counterexample). -/
theorem compress_old_sessions_spec (encode decode : List Nat → List Nat)
    (dir : List FsFile) (ci ca : Nat) :
    (ca = 0 → compress_old_sessions encode dir ci ca = dir) ∧
    (0 < ca → ca ≤ ci → (dir.map (fun f => f.name)).Nodup →
      (∀ bs, decode (encode bs) = bs) →
      (∀ f ∈ dir, compressCandidate (ci - ca) f.name = true →
        (⟨destName f.name, encode f.content⟩ : FsFile) ∈
            compress_old_sessions encode dir ci ca ∧
        decode (encode f.content) = f.content ∧
        ∀ g ∈ compress_old_sessions encode dir ci ca, g.name ≠ f.name) ∧
      (∀ f ∈ dir, compressCandidate (ci - ca) f.name = false →
        (∀ g ∈ dir, compressCandidate (ci - ca) g.name = true →
          destName g.name ≠ f.name) →
        f ∈ compress_old_sessions encode dir ci ca)) := by
  constructor
  · intro h
    unfold compress_old_sessions
    rw [if_pos h]
  · intro hca hci hnodup hdec
    have hunfold : compress_old_sessions encode dir ci ca =
        (dir.map (fun f => f.name)).foldl
          (compressStep encode (ci - ca)) dir := by
      unfold compress_old_sessions
      rw [if_neg (by omega), if_neg (by omega)]
    constructor
    · intro f hf hcand
      have hmemn : f.name ∈ dir.map (fun f => f.name) :=
        List.mem_map_of_mem _ hf
      have hinj : ∀ n ∈ dir.map (fun f => f.name),
          compressCandidate (ci - ca) n = true →
          destName n = destName f.name → n = f.name := by
        intro n _ hcn hdeq
        exact dest_inj (ci - ca) n f.name hcn hcand hdeq
      have hread := fsRead_of_nodup dir f hnodup hf
      have h := fold_compress_cand encode (ci - ca)
        (dir.map (fun f => f.name)) dir f hcand hmemn hnodup hinj hread
      rw [hunfold]
      exact ⟨h.1, hdec f.content, h.2⟩
    · intro f hf hcand hnoclobber
      rw [hunfold]
      apply fold_preserves encode (ci - ca) _ dir f hf hcand
      intro n hn hcn
      obtain ⟨g, hg, hgn⟩ := List.mem_map.mp hn
      rw [← hgn]
      rw [← hgn] at hcn
      exact hnoclobber g hg hcn

/-- C5 counterexample: a pre-existing `7.jsonl.zst` is NOT left untouched
when `7.jsonl` is also present and compressible — `compress_file` overwrites
it.  (`encode` instantiated with the identity; the overwrite happens for any
encoder.) -/
theorem compress_zst_clobber_counterexample :
    compress_old_sessions (fun bs => bs)
      [⟨"7.jsonl", [1]⟩, ⟨"7.jsonl.zst", [2]⟩] 10 3 =
      [⟨"7.jsonl.zst", [1]⟩] ∧
    (⟨"7.jsonl.zst", [2]⟩ : FsFile) ∉
      compress_old_sessions (fun bs => bs)
        [⟨"7.jsonl", [1]⟩, ⟨"7.jsonl.zst", [2]⟩] 10 3 := by
  constructor <;> decide

/-- Witness for `compress_old_sessions_spec`: with `current_iteration = 9`,
`compress_after = 5`, `0.jsonl` (≤ threshold 4) is compressed and decodes
back, `9.jsonl` (above threshold) and `notes.jsonl` (non-numeric) survive. -/
theorem compress_old_sessions_spec_witness :
    ((⟨"0.jsonl.zst", 0 :: [10, 20]⟩ : FsFile) ∈
        compress_old_sessions (fun bs => 0 :: bs)
          [⟨"0.jsonl", [10, 20]⟩, ⟨"9.jsonl", [30]⟩, ⟨"notes.jsonl", [40]⟩]
          9 5 ∧
      List.drop 1 (0 :: [10, 20]) = [10, 20] ∧
      ∀ g ∈ compress_old_sessions (fun bs => 0 :: bs)
          [⟨"0.jsonl", [10, 20]⟩, ⟨"9.jsonl", [30]⟩, ⟨"notes.jsonl", [40]⟩]
          9 5, g.name ≠ "0.jsonl") ∧
    (⟨"9.jsonl", [30]⟩ : FsFile) ∈
      compress_old_sessions (fun bs => 0 :: bs)
        [⟨"0.jsonl", [10, 20]⟩, ⟨"9.jsonl", [30]⟩, ⟨"notes.jsonl", [40]⟩]
        9 5 ∧
    (⟨"notes.jsonl", [40]⟩ : FsFile) ∈
      compress_old_sessions (fun bs => 0 :: bs)
        [⟨"0.jsonl", [10, 20]⟩, ⟨"9.jsonl", [30]⟩, ⟨"notes.jsonl", [40]⟩]
        9 5 := by
  have h := (compress_old_sessions_spec (fun bs => 0 :: bs)
    (fun bs => bs.drop 1)
    [⟨"0.jsonl", [10, 20]⟩, ⟨"9.jsonl", [30]⟩, ⟨"notes.jsonl", [40]⟩]
    9 5).2 (by norm_num) (by norm_num) (by decide) (fun bs => rfl)
  refine ⟨h.1 ⟨"0.jsonl", [10, 20]⟩ (by decide) (by decide), ?_, ?_⟩
  · exact h.2 ⟨"9.jsonl", [30]⟩ (by decide) (by decide) (by decide)
  · exact h.2 ⟨"notes.jsonl", [40]⟩ (by decide) (by decide) (by decide)

end Blacksmith
